import Mathlib

/-!
Shallow embedding of the on-disk payload index core of the qdrant repository
excerpt: the memory-mapped full-text inverted index
(`lib/segment/src/index/field_index/full_text_index/inverted_index/mmap_inverted_index/mod.rs`),
the memory-mapped geo index
(`lib/segment/src/index/field_index/geo_index/mmap_geo_index.rs`) and the
gRPC validation helpers (`lib/api/src/grpc/validate.rs`).

Machine integers (`u32` point and token ids, `usize` counts) are embedded as
`Nat`; the only arithmetic performed on them is indexing, comparison and a
single decrement, so no wrap-around is observable.  `i64`/`i32` timestamp
fields are embedded as `Int`.  Fallible lookups are `Option`; a Rust `unwrap`
on `None` (a panic) is embedded as an `Option`-valued result where `none`
means "panicked".  Hardware-counter side effects are pure bookkeeping with no
influence on results, so they are dropped from the embedding.
-/

namespace QdrantSpec

abbrev TokenId := Nat
abbrev PointId := Nat

/-! ## Inverted index: data model

`MmapInvertedIndex` (mod.rs lines 37-51): `storage : Option<Storage>` where
`Storage` bundles postings, vocabulary, `point_to_tokens_count : MmapSlice<usize>`
and the buffered deletion bitset.  The vocabulary is not needed by any claim
and is omitted from `InvStorage`.

The posting store (`MmapPostingsEnum`, two arms) is not under `src/`.
Modelled from the spec (§4.3): an opaque container indexed by token id;
`get(token_id)` returns `None` iff the token id is out of range; a reader
exposes its sorted list of point ids, and the positional variant additionally
a sorted position list per (token, doc). -/

inductive MPostings where
  | ids (ls : List (List PointId))
  | withPositions (ls : List (List (PointId × List Nat)))

/-- Ids view of the posting store: the list of posting lists, each a sorted
list of document ids (the positional variant colocates position arrays, which
this view projects away). -/
def MPostings.lists : MPostings → List (List PointId)
  | .ids ls => ls
  | .withPositions ls => ls.map (fun l => l.map (fun e => e.1))

/-- Ids view of `get(token_id)`: `None` iff the token id is out of range; the
reader's forward iteration / `contains` visitor range over the document ids in
both variants. -/
def MPostings.getIds (ps : MPostings) (t : TokenId) : Option (List PointId) :=
  ps.lists.get? t

def MPostings.isPositional : MPostings → Bool
  | .ids _ => false
  | .withPositions _ => true

structure InvStorage where
  postings : MPostings
  pointToTokensCount : List Nat
  deletedPoints : List Bool

structure MmapInvertedIndex where
  storage : Option InvStorage
  activePointsCount : Nat

/-- Modelled from the spec (§4.2): `MmapBitSliceBufferedUpdateWrapper.get`
(not under `src/`) returns the current bit, or `None` out of range. -/
def bitGet (bits : List Bool) (i : Nat) : Option Bool := bits.get? i

/-- Modelled from the spec (§4.2): `set(i, true)` records the bit; out-of-range
`set` is a no-op. -/
def bitSet (bits : List Bool) (i : Nat) (b : Bool) : List Bool := bits.set i b

/-- `MmapInvertedIndex::is_active` (mod.rs lines 170-180): the point id is
valid and not tombstoned; `get(point_id).unwrap_or(true)` treats out-of-range
as deleted. -/
def MmapInvertedIndex.isActive (idx : MmapInvertedIndex) (p : PointId) : Bool :=
  match idx.storage with
  | none => false
  | some s => !((bitGet s.deletedPoints p).getD true)

/-- Modelled from the spec (§4.3 multi-way intersection):
`intersect_compressed_postings_iterator` is not under `src/`.  Given posting
readers it streams the point ids present in all readers, in the (ascending)
order of the first reader, applying the external filter predicate. -/
def intersectPostings (readers : List (List PointId)) (filt : PointId → Bool) :
    List PointId :=
  match readers with
  | [] => []
  | r :: rs => r.filter (fun p => rs.all (fun l => l.contains p) && filt p)

/-- The `collect::<Option<Vec<_>>>` of posting readers over the query tokens
(mod.rs lines 201-205): `Some` of all readers, or `None` as soon as any token
fails to resolve. -/
def collectReaders (ps : MPostings) : List TokenId → Option (List (List PointId))
  | [] => some []
  | t :: ts =>
    match ps.getIds t with
    | none => none
    | some r => (collectReaders ps ts).map (fun rs => r :: rs)

/-- `MmapInvertedIndex::filter_has_subset` (mod.rs lines 183-229): resolve
every query token to a posting reader (`collect` into `Option`), return the
empty stream if any token is unseen or the query is empty, otherwise intersect
with the `is_active` filter.  Both postings arms call the same generic
`intersection` helper, which only uses the ids view. -/
def MmapInvertedIndex.filterHasSubset (idx : MmapInvertedIndex)
    (tokens : List TokenId) : List PointId :=
  match idx.storage with
  | none => []
  | some s =>
    match collectReaders s.postings tokens with
    | none => []
    | some readers =>
      if readers.isEmpty then []
      else intersectPostings readers (fun p => idx.isActive p)

/-- `MmapInvertedIndex::values_is_empty` (mod.rs lines 474-492). -/
def MmapInvertedIndex.valuesIsEmpty (idx : MmapInvertedIndex) (p : PointId) :
    Bool :=
  match idx.storage with
  | none => true
  | some s =>
    if (bitGet s.deletedPoints p).getD true then true
    else
      match s.pointToTokensCount.get? p with
      | some c => c == 0
      | none => true

/-- `MmapInvertedIndex::values_count` (mod.rs lines 494-513). -/
def MmapInvertedIndex.valuesCount (idx : MmapInvertedIndex) (p : PointId) :
    Nat :=
  match idx.storage with
  | none => 0
  | some s =>
    if (bitGet s.deletedPoints p).getD true then 0
    else (s.pointToTokensCount.get? p).getD 0

/-- The token loop of `check_intersection` inside
`MmapInvertedIndex::check_has_subset` (mod.rs lines 246-264):
`tokens.iter().all(|t| postings.get(*t).unwrap().visitor().contains(point_id))`.
`all` short-circuits; the `unwrap` panics when `get` returns `None`, embedded
as result `none`. -/
def checkTokensAll (ps : MPostings) (tokens : List TokenId) (p : PointId) :
    Option Bool :=
  match tokens with
  | [] => some true
  | t :: ts =>
    match ps.getIds t with
    | none => none
    | some pl => if pl.contains p then checkTokensAll ps ts p else some false

/-- `MmapInvertedIndex::check_has_subset` (mod.rs lines 231-272).  `none`
means the Rust code panicked (the `unwrap` on an unresolved token). -/
def MmapInvertedIndex.checkHasSubset (idx : MmapInvertedIndex)
    (tokens : List TokenId) (p : PointId) : Option Bool :=
  match idx.storage with
  | none => some false
  | some s =>
    if tokens.isEmpty then some false
    else if idx.valuesIsEmpty p then some false
    else checkTokensAll s.postings tokens p

/-! ## Phrase queries

The phrase helpers `intersect_compressed_postings_phrase_iterator` and
`check_compressed_postings_phrase` are not under `src/`.  Modelled from the
spec (§4.3 Phrase matching): resolve a posting reader for every distinct query
token (any miss means no results), intersect the candidate documents, and keep
a candidate iff the intersection of the query tokens' position lists, each
shifted left by its query offset, is non-empty. -/

abbrev Document := List TokenId

/-- Positions of token `t` inside document `p` (positional store only). -/
def positionsOf (pls : List (List (PointId × List Nat))) (t : TokenId)
    (p : PointId) : List Nat :=
  match pls.get? t with
  | none => []
  | some l =>
    match l.find? (fun e => e.1 == p) with
    | none => []
    | some e => e.2

/-- Modelled from the spec (§9 Phrase algorithm): shift a position list left
by the query-local offset; positions smaller than the offset cannot start a
match and are dropped. -/
def shiftPositions (ps : List Nat) (i : Nat) : List Nat :=
  (ps.filter (fun q => i ≤ q)).map (fun q => q - i)

def intersectAll : List (List Nat) → List Nat
  | [] => []
  | x :: xs => x.filter (fun v => xs.all (fun l => l.contains v))

/-- Modelled from the spec (§4.3): does the phrase occur in document `p`? -/
def phrasePositionsMatch (pls : List (List (PointId × List Nat)))
    (phrase : Document) (p : PointId) : Bool :=
  !(intersectAll
      (phrase.enum.map (fun e => shiftPositions (positionsOf pls e.2 p) e.1))).isEmpty

/-- `MmapInvertedIndex::filter_has_phrase` (mod.rs lines 275-298): empty on
absent storage or a non-positional store; otherwise the phrase iterator
(modelled from the spec §4.3) with the `is_active` filter. -/
def MmapInvertedIndex.filterHasPhrase (idx : MmapInvertedIndex)
    (phrase : Document) : List PointId :=
  match idx.storage with
  | none => []
  | some s =>
    match s.postings with
    | .ids _ => []
    | .withPositions pls =>
      match collectReaders (MPostings.withPositions pls) phrase.dedup with
      | none => []
      | some readers =>
        if readers.isEmpty then []
        else
          (intersectPostings readers (fun p => idx.isActive p)).filter
            (fun p => phrasePositionsMatch pls phrase p)

/-- `MmapInvertedIndex::check_has_phrase` (mod.rs lines 300-323); the inner
`check_compressed_postings_phrase` is modelled from the spec (§4.3), with
`none` embedding the panic of its unresolved-token `unwrap` (spec §9). -/
def MmapInvertedIndex.checkHasPhrase (idx : MmapInvertedIndex)
    (phrase : Document) (p : PointId) : Option Bool :=
  match idx.storage with
  | none => some false
  | some s =>
    if !(idx.isActive p) then some false
    else
      match s.postings with
      | .ids _ => some false
      | .withPositions pls =>
        if phrase.all (fun t => t < pls.length) then
          some (phrasePositionsMatch pls phrase p
            && phrase.all (fun t =>
                (((MPostings.withPositions pls).getIds t).getD []).contains p))
        else none

/-- `ParsedQuery` (inverted_index mod): token set or phrase. -/
inductive ParsedQuery where
  | tokens (ts : List TokenId)
  | phrase (d : Document)

/-- `MmapInvertedIndex::filter` (mod.rs lines 428-437). -/
def MmapInvertedIndex.filterQuery (idx : MmapInvertedIndex) (q : ParsedQuery) :
    List PointId :=
  match q with
  | .tokens ts => idx.filterHasSubset ts
  | .phrase d => idx.filterHasPhrase d

/-- `MmapInvertedIndex::check_match` (mod.rs lines 467-472). -/
def MmapInvertedIndex.checkMatch (idx : MmapInvertedIndex) (q : ParsedQuery)
    (p : PointId) : Option Bool :=
  match q with
  | .tokens ts => idx.checkHasSubset ts p
  | .phrase d => idx.checkHasPhrase d p

/-- `MmapInvertedIndex::points_count` (mod.rs lines 515-517). -/
def MmapInvertedIndex.pointsCount (idx : MmapInvertedIndex) : Nat :=
  idx.activePointsCount

/-- `MmapInvertedIndex::remove` (mod.rs lines 403-426).  Returns the boolean
result together with the updated index.  The `usize` decrement
`active_points_count -= 1` is embedded as truncated `Nat` subtraction. -/
def MmapInvertedIndex.remove (idx : MmapInvertedIndex) (i : PointId) :
    Bool × MmapInvertedIndex :=
  match idx.storage with
  | none => (false, idx)
  | some s =>
    match bitGet s.deletedPoints i with
    | none => (false, idx)
    | some true => (false, idx)
    | some false =>
      let dp := bitSet s.deletedPoints i true
      if i < s.pointToTokensCount.length then
        (true,
          { storage := some { s with
              deletedPoints := dp,
              pointToTokensCount := s.pointToTokensCount.set i 0 },
            activePointsCount := idx.activePointsCount - 1 })
      else
        (true,
          { storage := some { s with deletedPoints := dp },
            activePointsCount := idx.activePointsCount })

/-- A sequence of `remove` calls (results discarded). -/
def removeAll (idx : MmapInvertedIndex) : List PointId → MmapInvertedIndex
  | [] => idx
  | i :: is => removeAll (idx.remove i).2 is

/-- `MmapInvertedIndex::open`, storage-present branch (mod.rs lines 116-152):
`active_points_count = point_to_tokens_count.len() - deleted.count_ones()`. -/
def openIndex (ps : MPostings) (counts : List Nat) (deleted : List Bool) :
    MmapInvertedIndex :=
  { storage := some { postings := ps, pointToTokensCount := counts, deletedPoints := deleted },
    activePointsCount := counts.length - deleted.count true }

/-- `MmapInvertedIndex::open`, missing-`postings.dat` branch
(mod.rs lines 106-114): `storage = None`, `active_points_count = 0`. -/
def openEmptyIndex : MmapInvertedIndex :=
  { storage := none, activePointsCount := 0 }

/-- Number of point ids `p < n` for which `is_active(p)` holds. -/
def numActiveBelow (idx : MmapInvertedIndex) (n : Nat) : Nat :=
  ((List.range n).filter (fun p => idx.isActive p)).length

/-- Length of the deletion bitset (0 when storage is absent):
`is_active` is `false` for every id at or beyond it. -/
def deletedLen (idx : MmapInvertedIndex) : Nat :=
  match idx.storage with
  | none => 0
  | some s => s.deletedPoints.length

/-! ## Geo index: data model

`MmapGeoMapIndex` (mmap_geo_index.rs lines 60-82).  The `GeoHash` key type is
not under `src/`; modelled from the spec (§3): a byte string under
lexicographic total order, with the prefix relation as containment. -/

abbrev GeoHash := List Nat

/-- Byte comparison (`Ord` on the hash characters). -/
def bcmp (a b : Nat) : Ordering :=
  if a < b then .lt else if a = b then .eq else .gt

/-- Modelled from the spec (§3): lexicographic comparison of geohashes
(`GeoHash`'s `Ord`). -/
def geoCmp : GeoHash → GeoHash → Ordering
  | [], [] => .eq
  | [], _ :: _ => .lt
  | _ :: _, [] => .gt
  | a :: xs, b :: ys =>
    match bcmp a b with
    | .eq => geoCmp xs ys
    | o => o

/-- Modelled from the spec (§3): `b.starts_with(a)`, i.e. `a` is a prefix of
`b`. -/
def isPfx : GeoHash → GeoHash → Bool
  | [], _ => true
  | _ :: _, [] => false
  | a :: xs, b :: ys => a == b && isPfx xs ys

/-- `Counts` record (mmap_geo_index.rs lines 30-36). -/
structure Counts where
  hash : GeoHash
  points : Nat
  values : Nat
  deriving DecidableEq

/-- `PointKeyValue` record (mmap_geo_index.rs lines 38-44). -/
structure PointKeyValue where
  hash : GeoHash
  idsStart : Nat
  idsEnd : Nat
  deriving DecidableEq

/-- `Storage` of `MmapGeoMapIndex` (mmap_geo_index.rs lines 69-82);
`point_to_values` is not needed by any claim and is omitted. -/
structure GeoStorage where
  countsPerHash : List Counts
  pointsMap : List PointKeyValue
  pointsMapIds : List PointId
  deleted : List Bool

structure MmapGeoMapIndex where
  storage : Option GeoStorage

/-! ### Rust `slice::binary_search_by`

Not under `src/` (standard library): the classic half-interval loop.
`lo`/`hi` bracket the search; comparing the middle element against the target
yields `.lt` (go right), `.gt` (go left) or `.eq` (found, `Ok(mid)`); an empty
interval yields `Err(lo)`, the insertion point.  Recursion is by fuel; fuel
`len + 1` always suffices since `hi - lo` shrinks every step. -/

def binSearchLoop (c : Nat → Ordering) : Nat → Nat → Nat → Except Nat Nat
  | 0, lo, _ => .error lo
  | fuel + 1, lo, hi =>
    if lo < hi then
      match c (lo + (hi - lo) / 2) with
      | .lt => binSearchLoop c fuel (lo + (hi - lo) / 2 + 1) hi
      | .gt => binSearchLoop c fuel lo (lo + (hi - lo) / 2)
      | .eq => .ok (lo + (hi - lo) / 2)
    else .error lo

/-- `l.binary_search_by(f)` where `f` compares an element against the target. -/
def binarySearchBy (f : α → Ordering) (l : List α) : Except Nat Nat :=
  binSearchLoop (fun i => match l.get? i with | some x => f x | none => .eq)
    (l.length + 1) 0 l.length

/-- `.unwrap_or_else(|index| index)` on a binary-search result. -/
def searchIdx : Except Nat Nat → Nat
  | .ok i => i
  | .error i => i

/-- `MmapGeoMapIndex::points_of_hash` (mmap_geo_index.rs lines 324-346):
binary-search `counts_per_hash` by hash; on `Ok(index)` return
`counts_per_hash[index].points`, else 0.  (The hardware-counter charge has no
effect on the result and is dropped.) -/
def MmapGeoMapIndex.pointsOfHash (g : MmapGeoMapIndex) (h : GeoHash) : Nat :=
  match g.storage with
  | none => 0
  | some s =>
    match binarySearchBy (fun x => geoCmp x.hash h) s.countsPerHash with
    | .ok i => ((s.countsPerHash.get? i).map Counts.points).getD 0
    | .error _ => 0

/-- `values_per_hash.get(hash)` on the in-memory `BTreeMap`, embedded as an
association list sorted by key. -/
def lookupHash (m : List (GeoHash × Nat)) (h : GeoHash) : Option Nat :=
  (m.find? (fun e => e.1 == h)).map (fun e => e.2)

/-- An all-zero `Counts` slot: `create_and_ensure_length` produces a
zero-filled file, so untouched record slots read back as zeroes. -/
def zeroCounts : Counts := { hash := [], points := 0, values := 0 }

/-- The `counts_per_hash` build block of `MmapGeoMapIndex::build`
(mmap_geo_index.rs lines 149-171): allocate
`min(points_per_hash.len(), values_per_hash.len())` zeroed slots, then zip
`points_per_hash` with the slots; slot `i` is written from the `i`-th entry of
`points_per_hash` only when `values_per_hash` contains its key, and is left
zeroed otherwise. -/
def buildCountsPerHash (pph vph : List (GeoHash × Nat)) : List Counts :=
  (List.range (min pph.length vph.length)).map (fun i =>
    match pph.get? i with
    | some e =>
      match lookupHash vph e.1 with
      | some v => { hash := e.1, points := e.2, values := v }
      | none => zeroCounts
    | none => zeroCounts)

/-- Rust `slice.get(a..b)`: `Some` of the sub-slice iff `a ≤ b ≤ len`. -/
def listSlice (l : List PointId) (a b : Nat) : Option (List PointId) :=
  if a ≤ b ∧ b ≤ l.length then some ((l.drop a).take (b - a)) else none

/-- Per-entry contribution of `stored_sub_regions`: the ids slice
`points_map_ids[ids_start..ids_end]` (an invalid range contributes nothing —
the `filter_map` arm returns `None`), with tombstoned and out-of-bitset-range
ids dropped by the inner `filter`. -/
def entryIds (s : GeoStorage) (e : PointKeyValue) : List PointId :=
  match listSlice s.pointsMapIds e.idsStart e.idsEnd with
  | none => []
  | some xs => xs.filter (fun i => !((bitGet s.deleted i).getD true))

/-- `MmapGeoMapIndex::stored_sub_regions` (mmap_geo_index.rs lines 434-461):
binary-search `points_map` for the geohash (`unwrap_or_else(|i| i)`), then
scan forward while the entry's hash still starts with the geohash, yielding
each entry's filtered ids slice. -/
def MmapGeoMapIndex.storedSubRegions (g : MmapGeoMapIndex) (h : GeoHash) :
    List PointId :=
  match g.storage with
  | none => []
  | some s =>
    ((s.pointsMap.drop
        (searchIdx (binarySearchBy (fun e => geoCmp e.hash h) s.pointsMap))).takeWhile
      (fun e => isPfx h e.hash)).flatMap (fun e => entryIds s e)

/-! ## gRPC validation (`lib/api/src/grpc/validate.rs`) -/

/-- `GeoPoint` coordinates (`f64` lat/lon) are embedded as integers:
validation only compares points for equality, and IEEE `==` on non-NaN values
is value equality; NaN payloads are outside this model. -/
structure GeoPoint where
  lat : Int
  lon : Int
  deriving DecidableEq

/-- Modelled from the spec: `validate_range_generic` lives in
`common::validation`, which is not under `src/`; per the spec (§4.6) a value
passes iff it is at least the given minimum and at most the given maximum. -/
def validateRangeGeneric (v : Int) (mn mx : Option Int) : Bool :=
  (match mn with | some m => decide (m ≤ v) | none => true)
    && (match mx with | some m => decide (v ≤ m) | none => true)

/-- `TIMESTAMP_MIN_SECONDS` (validate.rs line 10). -/
def TIMESTAMP_MIN_SECONDS : Int := -62135596800

/-- `TIMESTAMP_MAX_SECONDS` (validate.rs line 11). -/
def TIMESTAMP_MAX_SECONDS : Int := 253402300799

/-- `validate_timestamp` (validate.rs lines 441-449). -/
def validateTimestamp (seconds nanos : Int) : Bool :=
  validateRangeGeneric seconds (some TIMESTAMP_MIN_SECONDS)
      (some TIMESTAMP_MAX_SECONDS)
    && validateRangeGeneric nanos (some 0) (some 999999999)

/-- `validate_geo_polygon_line_helper` (validate.rs lines 403-420): at least 4
points and first equals last. -/
def validateGeoPolygonLineHelper (points : List GeoPoint) : Bool :=
  if points.length < 4 then false
  else points.head? == points.getLast?

/-- `validate_geo_polygon_exterior` (validate.rs lines 422-428). -/
def validateGeoPolygonExterior (points : List GeoPoint) : Bool :=
  if points.isEmpty then false
  else validateGeoPolygonLineHelper points

/-- `validate_geo_polygon_interiors` (validate.rs lines 430-437): every
interior ring must pass the helper (the loop stops at the first failure, which
is observationally `all`). -/
def validateGeoPolygonInteriors (lines : List (List GeoPoint)) : Bool :=
  lines.all validateGeoPolygonLineHelper

/-! # Theorems -/

/-- C6: opening a directory without `postings.dat` succeeds in the empty
state: `points_count()` is 0, `filter` of any query (token set or phrase)
yields the empty stream, and `remove(0)` returns `false`. -/
theorem c6_open_without_postings_is_empty :
    openEmptyIndex.pointsCount = 0
      ∧ (∀ q : ParsedQuery, openEmptyIndex.filterQuery q = [])
      ∧ (openEmptyIndex.remove 0).1 = false := by
  refine ⟨rfl, ?_, rfl⟩
  intro q
  cases q with
  | tokens ts => rfl
  | phrase d => rfl

/-- C8: `validate_timestamp` accepts exactly the timestamps whose seconds lie
in `[-62135596800, 253402300799]` and whose nanos lie in `[0, 999999999]`; in
particular it accepts `(0,0)`, `(253402300799, 999999999)`,
`(-62135596800, 0)` and rejects `(-62135596801, 0)`, `(0, 1000000000)`,
`(0, -1)`. -/
theorem c8_validate_timestamp_bounds :
    (∀ s n : Int, validateTimestamp s n = true ↔
        (-62135596800 ≤ s ∧ s ≤ 253402300799 ∧ 0 ≤ n ∧ n ≤ 999999999))
      ∧ validateTimestamp 0 0 = true
      ∧ validateTimestamp 253402300799 999999999 = true
      ∧ validateTimestamp (-62135596800) 0 = true
      ∧ validateTimestamp (-62135596801) 0 = false
      ∧ validateTimestamp 0 1000000000 = false
      ∧ validateTimestamp 0 (-1) = false := by
  refine ⟨?_, by decide, by decide, by decide, by decide, by decide, by decide⟩
  intro s n
  simp [validateTimestamp, validateRangeGeneric, TIMESTAMP_MIN_SECONDS,
    TIMESTAMP_MAX_SECONDS, and_assoc]

/-- C9: a ring passes `validate_geo_polygon_line_helper` iff it has at least 4
points and its first point equals its last; the exterior ring must in addition
be non-empty; and the interiors validator applies the same length-and-closure
rule to every interior ring. -/
theorem c9_geo_polygon_ring_validation (ring pts : List GeoPoint)
    (interiors : List (List GeoPoint)) :
    (validateGeoPolygonLineHelper ring = true ↔
        (4 ≤ ring.length ∧ ring.head? = ring.getLast?))
      ∧ (validateGeoPolygonExterior pts = true ↔
        (pts ≠ [] ∧ 4 ≤ pts.length ∧ pts.head? = pts.getLast?))
      ∧ (validateGeoPolygonInteriors interiors = true ↔
        ∀ l ∈ interiors, 4 ≤ l.length ∧ l.head? = l.getLast?) := by
  have helper : ∀ l : List GeoPoint,
      validateGeoPolygonLineHelper l = true ↔
        (4 ≤ l.length ∧ l.head? = l.getLast?) := by
    intro l
    unfold validateGeoPolygonLineHelper
    by_cases hl : l.length < 4
    · simp [hl, Nat.not_le.mpr hl]
    · simp [hl, Nat.not_lt.mp hl]
  refine ⟨helper ring, ?_, ?_⟩
  · unfold validateGeoPolygonExterior
    by_cases he : pts.isEmpty
    · have : pts = [] := List.isEmpty_iff.mp he
      subst this
      simp
    · have hne : pts ≠ [] := by
        intro hcon
        subst hcon
        simp at he
      simp [he, helper pts, hne]
  · unfold validateGeoPolygonInteriors
    simp only [List.all_eq_true]
    constructor
    · intro ha l hl
      exact (helper l).mp (ha l hl)
    · intro ha l hl
      exact (helper l).mpr (ha l hl)

/-- C10: for every index state and every point id, `values_is_empty` returns
`true` exactly when `values_count` returns 0 (absent storage, tombstoned and
out-of-range ids included). -/
theorem c10_values_is_empty_iff_count_zero (idx : MmapInvertedIndex)
    (p : PointId) :
    idx.valuesIsEmpty p = true ↔ idx.valuesCount p = 0 := by
  unfold MmapInvertedIndex.valuesIsEmpty MmapInvertedIndex.valuesCount
  cases idx.storage with
  | none => simp
  | some s =>
    by_cases hd : (bitGet s.deletedPoints p).getD true
    · simp [hd]
    · simp only [hd, if_false, Bool.false_eq_true]
      cases hc : s.pointToTokensCount.get? p with
      | none => simp
      | some c => simp [Nat.beq_eq_true_eq]

/-- C2: `remove(point_id)` returns `false` when storage is absent, when the
deletion bit is already set, or when the id is out of range of the deletion
bitset; otherwise it sets the bit from 0 to 1 and returns `true`, and it
zeroes the token-count slot and decrements the active-points counter exactly
when the id is within the physical range of the token-count slice (otherwise
the counter and the slice are unchanged). -/
theorem c2_remove_characterization (idx : MmapInvertedIndex) (i : PointId) :
    (idx.storage = none → idx.remove i = (false, idx))
      ∧ (∀ s, idx.storage = some s →
        (bitGet s.deletedPoints i = none → idx.remove i = (false, idx))
        ∧ (bitGet s.deletedPoints i = some true → idx.remove i = (false, idx))
        ∧ (bitGet s.deletedPoints i = some false →
          (idx.remove i).1 = true
          ∧ ∃ s', (idx.remove i).2.storage = some s'
            ∧ s'.deletedPoints = bitSet s.deletedPoints i true
            ∧ bitGet s'.deletedPoints i = some true
            ∧ (i < s.pointToTokensCount.length →
                s'.pointToTokensCount = s.pointToTokensCount.set i 0
                ∧ (idx.remove i).2.activePointsCount
                    = idx.activePointsCount - 1)
            ∧ (s.pointToTokensCount.length ≤ i →
                s'.pointToTokensCount = s.pointToTokensCount
                ∧ (idx.remove i).2.activePointsCount
                    = idx.activePointsCount))) := by
  constructor
  · intro hn
    simp [MmapInvertedIndex.remove, hn]
  · intro s hs
    refine ⟨?_, ?_, ?_⟩
    · intro hb
      simp [MmapInvertedIndex.remove, hs, hb]
    · intro hb
      simp [MmapInvertedIndex.remove, hs, hb]
    · intro hb
      have hi : i < s.deletedPoints.length := by
        rcases List.get?_eq_some.mp hb with ⟨h, -⟩
        exact h
      have hset : bitGet (bitSet s.deletedPoints i true) i = some true := by
        simpa [bitGet, bitSet] using List.get?_set_eq_of_lt true hi
      by_cases hlen : i < s.pointToTokensCount.length
      · refine ⟨by simp [MmapInvertedIndex.remove, hs, hb, hlen], ?_⟩
        refine ⟨⟨s.postings, s.pointToTokensCount.set i 0,
            bitSet s.deletedPoints i true⟩,
          by simp [MmapInvertedIndex.remove, hs, hb, hlen], rfl, hset,
          fun _ => ⟨rfl, by simp [MmapInvertedIndex.remove, hs, hb, hlen]⟩,
          fun hge => absurd hlen (Nat.not_lt.mpr hge)⟩
      · refine ⟨by simp [MmapInvertedIndex.remove, hs, hb, hlen], ?_⟩
        refine ⟨⟨s.postings, s.pointToTokensCount,
            bitSet s.deletedPoints i true⟩,
          by simp [MmapInvertedIndex.remove, hs, hb, hlen], rfl, hset,
          fun hlt => absurd hlt hlen,
          fun _ => ⟨rfl, by simp [MmapInvertedIndex.remove, hs, hb, hlen]⟩⟩

/-- Witness for C2: on a concrete one-point index the active branch of
`remove` fires: the call returns `true`, sets the bit, zeroes the slot and
decrements the counter. -/
theorem c2_remove_characterization_witness :
    ((openIndex (.ids [[0]]) [1] [false]).remove 0).1 = true
      ∧ ((openIndex (.ids [[0]]) [1] [false]).remove 0).2.activePointsCount
          = 0 := by
  have h := (c2_remove_characterization (openIndex (.ids [[0]]) [1] [false]) 0).2
    { postings := .ids [[0]], pointToTokensCount := [1], deletedPoints := [false] }
    rfl
  have h3 := h.2.2 (by decide)
  refine ⟨h3.1, ?_⟩
  obtain ⟨s', _, _, _, hin, _⟩ := h3.2
  have := (hin (by decide)).2
  simpa using this

/-- The token loop of `check_has_subset` can never report `true` when some
query token fails to resolve: `all` either short-circuits on an earlier
non-containing token (`some false`) or reaches the unresolved token and
panics (`none`). -/
theorem checkTokensAll_ne_true (ps : MPostings) (p : PointId) :
    ∀ tokens : List TokenId, (∃ t ∈ tokens, ps.getIds t = none) →
      checkTokensAll ps tokens p ≠ some true := by
  intro tokens
  induction tokens with
  | nil =>
    rintro ⟨t, ht, -⟩
    cases ht
  | cons u ts ih =>
    rintro ⟨t, ht, hu⟩
    unfold checkTokensAll
    cases hgu : ps.getIds u with
    | none => simp
    | some pl =>
      by_cases hc : pl.contains p
      · simp only [hc, if_true]
        apply ih
        rcases List.mem_cons.mp ht with h | h
        · subst h
          rw [hgu] at hu
          cases hu
        · exact ⟨t, h, hu⟩
      · have hc' : ¬ p ∈ pl := by simpa using hc
        simp [hc']

/-- C7 (amended): when some token of a token-set query does not resolve to a
posting list, `check_match` never returns `true`: it returns `false` when the
query is empty, the point's document is tombstoned or empty, or an
earlier-resolved token's posting excludes the point; if evaluation reaches the
unresolved token, the `unwrap` in `check_has_subset` panics (result `none` in
this embedding) instead of returning `false`. -/
theorem c7_check_unresolved_token_never_true (idx : MmapInvertedIndex)
    (s : InvStorage) (hs : idx.storage = some s) (tokens : List TokenId)
    (p : PointId) (hu : ∃ t ∈ tokens, s.postings.getIds t = none) :
    idx.checkHasSubset tokens p ≠ some true := by
  unfold MmapInvertedIndex.checkHasSubset
  rw [hs]
  by_cases hemp : tokens.isEmpty
  · simp [hemp]
  · by_cases hv : idx.valuesIsEmpty p
    · simp [hemp, hv]
    · simp only [hemp, hv, if_false, Bool.false_eq_true]
      exact checkTokensAll_ne_true s.postings p tokens hu

/-- Witness for C7: a concrete index and query containing the unresolved
token 1, where the short-circuit on token 0 yields `some false`. -/
theorem c7_check_unresolved_token_never_true_witness :
    (openIndex (.ids [[5]]) [1] [false]).checkHasSubset [0, 1] 0 ≠ some true := by
  exact c7_check_unresolved_token_never_true (openIndex (.ids [[5]]) [1] [false])
    { postings := .ids [[5]], pointToTokensCount := [1], deletedPoints := [false] }
    rfl [0, 1] 0 ⟨1, by decide, by decide⟩

/-- Counterexample to C7 as stated: on a one-point index whose point 0 is
active and non-empty, `check_has_subset` over the single unresolved token 1
reaches the `unwrap` on `None` and panics (embedded as `none`) instead of
returning `false` without failing. -/
theorem c7_check_unresolved_token_counterexample :
    (openIndex (.ids [[0]]) [1] [false]).checkHasSubset [1] 0 = none := by
  decide

/-- When every query token resolves, `collect` succeeds and the readers are
exactly the posting lists of the query tokens. -/
theorem collectReaders_resolved (ps : MPostings) :
    ∀ tokens : List TokenId, (∀ t ∈ tokens, ps.getIds t ≠ none) →
      ∃ rs, collectReaders ps tokens = some rs
        ∧ (rs = [] ↔ tokens = [])
        ∧ (∀ l, l ∈ rs ↔ ∃ t ∈ tokens, ps.getIds t = some l) := by
  intro tokens
  induction tokens with
  | nil =>
    intro _
    exact ⟨[], rfl, by simp, by simp⟩
  | cons u ts ih =>
    intro hres
    obtain ⟨rs, hcr, -, hmem⟩ := ih (fun t ht => hres t (List.mem_cons_of_mem u ht))
    cases hgu : ps.getIds u with
    | none => exact absurd hgu (hres u (List.mem_cons_self u ts))
    | some r =>
      refine ⟨r :: rs, ?_, by simp, ?_⟩
      · unfold collectReaders
        rw [hgu, hcr]
        rfl
      · intro l
        constructor
        · intro h
          rcases List.mem_cons.mp h with h | h
          · exact ⟨u, List.mem_cons_self u ts, h ▸ hgu⟩
          · obtain ⟨t, ht, hl⟩ := (hmem l).mp h
            exact ⟨t, List.mem_cons_of_mem u ht, hl⟩
        · rintro ⟨t, ht, hl⟩
          rcases List.mem_cons.mp ht with h | h
          · subst h
            rw [hgu] at hl
            exact List.mem_cons.mpr (Or.inl (Option.some.inj hl).symm)
          · exact List.mem_cons.mpr (Or.inr ((hmem l).mpr ⟨t, h, hl⟩))

/-- Membership in the multi-way intersection: present in every reader and
accepted by the external filter. -/
theorem mem_intersectPostings (readers : List (List PointId))
    (filt : PointId → Bool) (p : PointId) (hne : readers ≠ []) :
    p ∈ intersectPostings readers filt ↔
      (∀ l ∈ readers, p ∈ l) ∧ filt p = true := by
  cases readers with
  | nil => exact absurd rfl hne
  | cons r rs =>
    unfold intersectPostings
    rw [List.mem_filter]
    constructor
    · rintro ⟨hr, hcond⟩
      have h1 : (rs.all fun l => l.contains p) = true ∧ filt p = true := by
        simpa using hcond
      refine ⟨?_, h1.2⟩
      intro l hl
      rcases List.mem_cons.mp hl with h | h
      · exact h ▸ hr
      · simpa using List.all_eq_true.mp h1.1 l h
    · rintro ⟨hall, hf⟩
      refine ⟨hall r (List.mem_cons_self r rs), ?_⟩
      simp only [Bool.and_eq_true]
      refine ⟨?_, hf⟩
      rw [List.all_eq_true]
      intro l hl
      simpa using hall l (List.mem_cons_of_mem r hl)

/-- When every query token resolves, the `all`-loop of `check_has_subset`
reports `true` iff every query token's posting contains the point. -/
theorem checkTokensAll_resolved (ps : MPostings) (p : PointId) :
    ∀ tokens : List TokenId, (∀ t ∈ tokens, ps.getIds t ≠ none) →
      (checkTokensAll ps tokens p = some true ↔
        ∀ t ∈ tokens, ∀ pl, ps.getIds t = some pl → p ∈ pl) := by
  intro tokens
  induction tokens with
  | nil =>
    intro _
    simp [checkTokensAll]
  | cons u ts ih =>
    intro hres
    have ihts := ih (fun t ht => hres t (List.mem_cons_of_mem u ht))
    unfold checkTokensAll
    cases hgu : ps.getIds u with
    | none => exact absurd hgu (hres u (List.mem_cons_self u ts))
    | some pl =>
      by_cases hc : p ∈ pl
      · have hcb : pl.contains p = true := by simpa using hc
        simp only [hcb, if_true]
        rw [ihts]
        constructor
        · intro hall t ht pl' hpl'
          rcases List.mem_cons.mp ht with h | h
          · subst h
            rw [hgu] at hpl'
            cases Option.some.inj hpl'
            exact hc
          · exact hall t h pl' hpl'
        · intro hall t ht pl' hpl'
          exact hall t (List.mem_cons_of_mem u ht) pl' hpl'
      · have hcb : pl.contains p = false := by
          cases hb : pl.contains p with
          | false => rfl
          | true => exact absurd (by simpa using hb) hc
        simp only [hcb, Bool.false_eq_true, if_false]
        constructor
        · intro h
          cases h
        · intro hall
          exact absurd (hall u (List.mem_cons_self u ts) pl hgu) hc

/-- `is_active` holds exactly when the deletion bit is present and clear. -/
theorem isActive_iff_bit_clear (idx : MmapInvertedIndex) (s : InvStorage)
    (hs : idx.storage = some s) (p : PointId) :
    idx.isActive p = true ↔ bitGet s.deletedPoints p = some false := by
  simp only [MmapInvertedIndex.isActive, hs]
  cases bitGet s.deletedPoints p with
  | none => simp
  | some b => cases b <;> simp

/-- `values_is_empty` is `false` exactly when the deletion bit is clear and
the token-count slot exists and is non-zero. -/
theorem valuesIsEmpty_false_iff (idx : MmapInvertedIndex) (s : InvStorage)
    (hs : idx.storage = some s) (p : PointId) :
    idx.valuesIsEmpty p = false ↔
      (bitGet s.deletedPoints p = some false
        ∧ (s.pointToTokensCount.get? p).getD 0 ≠ 0) := by
  simp only [MmapInvertedIndex.valuesIsEmpty, hs]
  cases hb : bitGet s.deletedPoints p with
  | none => simp
  | some b =>
    cases b with
    | true => simp
    | false =>
      simp only [Option.getD_some, if_false, Bool.false_eq_true]
      cases hc : s.pointToTokensCount.get? p with
      | none => simp
      | some c => simp

/-- C1: for a token-set query whose tokens all resolve to posting lists, and
any index state satisfying the build-maintained invariant that every
non-tombstoned posting member has a non-zero token-count slot, the stream of
`filter` contains exactly the points for which `check_match` returns `true`
and `is_active` holds. -/
theorem c1_filter_iff_check_match_and_active (idx : MmapInvertedIndex)
    (s : InvStorage) (hs : idx.storage = some s) (tokens : List TokenId)
    (hresolve : ∀ t ∈ tokens, s.postings.getIds t ≠ none)
    (hinv : ∀ pl ∈ s.postings.lists, ∀ p ∈ pl,
      bitGet s.deletedPoints p = some false →
        (s.pointToTokensCount.get? p).getD 0 ≠ 0) :
    ∀ p, p ∈ idx.filterQuery (.tokens tokens) ↔
      (idx.checkMatch (.tokens tokens) p = some true
        ∧ idx.isActive p = true) := by
  intro p
  obtain ⟨rs, hcr, hrsnil, hmem⟩ := collectReaders_resolved s.postings tokens hresolve
  simp only [MmapInvertedIndex.filterQuery, MmapInvertedIndex.checkMatch,
    MmapInvertedIndex.filterHasSubset, MmapInvertedIndex.checkHasSubset, hs, hcr]
  cases tokens with
  | nil =>
    have : rs = [] := hrsnil.mpr rfl
    subst this
    simp
  | cons u ts =>
    have hrsne : rs ≠ [] := fun h => by cases hrsnil.mp h
    have hemp : rs.isEmpty = false := by
      cases rs with
      | nil => exact absurd rfl hrsne
      | cons a as => rfl
    rw [hemp]
    simp only [Bool.false_eq_true, if_false, List.isEmpty_cons]
    rw [mem_intersectPostings rs _ p hrsne]
    constructor
    · rintro ⟨hall, hact⟩
      have hbit : bitGet s.deletedPoints p = some false :=
        (isActive_iff_bit_clear idx s hs p).mp hact
      have hgu : ∃ plu, s.postings.getIds u = some plu := by
        cases hgu : s.postings.getIds u with
        | none => exact absurd hgu (hresolve u (List.mem_cons_self u ts))
        | some plu => exact ⟨plu, rfl⟩
      obtain ⟨plu, hplu⟩ := hgu
      have hpmem : p ∈ plu := hall plu ((hmem plu).mpr ⟨u, List.mem_cons_self u ts, hplu⟩)
      have hplu_mem : plu ∈ s.postings.lists := List.get?_mem hplu
      have hcount : (s.pointToTokensCount.get? p).getD 0 ≠ 0 :=
        hinv plu hplu_mem p hpmem hbit
      have hv : idx.valuesIsEmpty p = false :=
        (valuesIsEmpty_false_iff idx s hs p).mpr ⟨hbit, hcount⟩
      rw [hv]
      simp only [Bool.false_eq_true, if_false]
      refine ⟨?_, hact⟩
      rw [checkTokensAll_resolved s.postings p (u :: ts) hresolve]
      intro t ht pl hpl
      exact hall pl ((hmem pl).mpr ⟨t, ht, hpl⟩)
    · rintro ⟨hchk, hact⟩
      cases hv : idx.valuesIsEmpty p with
      | true =>
        rw [hv] at hchk
        simp at hchk
      | false =>
        rw [hv] at hchk
        simp only [Bool.false_eq_true, if_false] at hchk
        rw [checkTokensAll_resolved s.postings p (u :: ts) hresolve] at hchk
        refine ⟨?_, hact⟩
        intro l hl
        obtain ⟨t, ht, hglt⟩ := (hmem l).mp hl
        exact hchk t ht l hglt

/-- Witness for C1: the INV-1 scenario — postings cat=0 → [1,2,5],
dog=1 → [2,5,7]; point 2 is yielded by `filter {cat,dog}` and indeed matches
and is active. -/
theorem c1_filter_iff_check_match_and_active_witness :
    2 ∈ (openIndex (.ids [[1, 2, 5], [2, 5, 7]]) [0, 1, 2, 0, 0, 2, 0, 1]
        [true, false, false, true, true, false, true, false]).filterQuery
        (.tokens [0, 1]) := by
  have h := c1_filter_iff_check_match_and_active
    (openIndex (.ids [[1, 2, 5], [2, 5, 7]]) [0, 1, 2, 0, 0, 2, 0, 1]
      [true, false, false, true, true, false, true, false])
    { postings := .ids [[1, 2, 5], [2, 5, 7]],
      pointToTokensCount := [0, 1, 2, 0, 0, 2, 0, 1],
      deletedPoints := [true, false, false, true, true, false, true, false] }
    rfl [0, 1] (by decide) (by decide) 2
  exact h.mpr ⟨by decide, by decide⟩

/-- Point ids at or beyond the deletion bitset are never active, so the
active set is finite and counted by `numActiveBelow` at `deletedLen`. -/
theorem isActive_false_of_ge (idx : MmapInvertedIndex) (p : PointId)
    (h : deletedLen idx ≤ p) : idx.isActive p = false := by
  unfold MmapInvertedIndex.isActive
  cases hs : idx.storage with
  | none => rfl
  | some s =>
    have hd : deletedLen idx = s.deletedPoints.length := by
      unfold deletedLen
      rw [hs]
    rw [hd] at h
    simp only [bitGet, List.get?_eq_none.mpr h, Option.getD_none]
    rfl

/-- Counting set bits of a boolean list by filtering its index range. -/
theorem filter_range_getD (l : List Bool) :
    ((List.range l.length).filter (fun i => (l.get? i).getD false)).length
      = l.count true := by
  induction l with
  | nil => rfl
  | cons a t ih =>
    rw [List.length_cons, List.range_succ_eq_map, List.filter_cons]
    have hmap : List.filter (fun i => (((a :: t).get? i).getD false))
        (List.map Nat.succ (List.range t.length))
        = List.map Nat.succ (List.filter
            (fun i => ((t.get? i).getD false)) (List.range t.length)) := by
      rw [List.filter_map]
      rfl
    cases a with
    | false =>
      simp only [List.get?_cons_zero, Option.getD_some, Bool.false_eq_true,
        if_false, hmap, List.length_map, ih, List.count_cons]
      rfl
    | true =>
      simp only [List.get?_cons_zero, Option.getD_some, if_true, hmap,
        List.length_cons, List.length_map, ih, List.count_cons]
      rfl

/-- Flipping one satisfied element of a duplicate-free list to unsatisfied
shrinks the filter by exactly one. -/
theorem filter_length_sub_one {P Q : Nat → Bool} :
    ∀ (L : List Nat), L.Nodup → ∀ i ∈ L, P i = true → Q i = false →
      (∀ j ∈ L, j ≠ i → Q j = P j) →
      (L.filter Q).length = (L.filter P).length - 1 := by
  intro L
  induction L with
  | nil =>
    intro _ i hi
    cases hi
  | cons a t ih =>
    intro hnd i hi hP hQ hsame
    have hat : a ∉ t := (List.nodup_cons.mp hnd).1
    have hndt : t.Nodup := (List.nodup_cons.mp hnd).2
    rw [List.filter_cons, List.filter_cons]
    rcases List.mem_cons.mp hi with rfl | hit
    · rw [hP, hQ]
      simp only [if_true, Bool.false_eq_true, if_false]
      have hfeq : t.filter Q = t.filter P := by
        apply List.filter_congr
        intro j hj
        exact hsame j (List.mem_cons_of_mem i hj) (fun h => hat (h ▸ hj))
      rw [hfeq, List.length_cons]
      omega
    · have hai : a ≠ i := fun h => hat (h ▸ hit)
      have hQa : Q a = P a := hsame a (List.mem_cons_self a t) hai
      have hpos : 1 ≤ (t.filter P).length := by
        have : i ∈ t.filter P := List.mem_filter.mpr ⟨hit, hP⟩
        have := List.ne_nil_of_mem this
        have := List.length_pos.mpr this
        omega
      have ih' := ih hndt i hit hP hQ
        (fun j hj hji => hsame j (List.mem_cons_of_mem a hj) hji)
      rw [hQa]
      cases hPa : P a with
      | true =>
        simp only [if_true, List.length_cons]
        omega
      | false =>
        simp only [Bool.false_eq_true, if_false]
        exact ih'

/-- At `open`, `len(point_to_tokens_count) − popcount(deleted)` counts
exactly the active ids below `len(point_to_tokens_count)`, provided the
bitset covers the slice and every bit beyond the slice is clear (as the build
guarantees). -/
theorem openIndex_active_count (ps : MPostings) (counts : List Nat)
    (deleted : List Bool) (hlen : counts.length ≤ deleted.length)
    (hpad : ∀ b ∈ deleted.drop counts.length, b = false) :
    counts.length - deleted.count true
      = numActiveBelow (openIndex ps counts deleted) counts.length := by
  have h1 : deleted.count true = (deleted.take counts.length).count true := by
    conv_lhs => rw [← List.take_append_drop counts.length deleted]
    rw [List.count_append]
    have hz : (deleted.drop counts.length).count true = 0 := by
      rw [List.count_eq_zero]
      intro hmem
      exact absurd (hpad true hmem) (by simp)
    omega
  have hlt : (deleted.take counts.length).length = counts.length := by
    rw [List.length_take]
    exact min_eq_left hlen
  have hcongr : ∀ p ∈ List.range counts.length,
      (openIndex ps counts deleted).isActive p
        = !(((deleted.take counts.length).get? p).getD false) := by
    intro p hp
    have hpn : p < counts.length := List.mem_range.mp hp
    have hpd : p < deleted.length := Nat.lt_of_lt_of_le hpn hlen
    have htake : (deleted.take counts.length).get? p = deleted.get? p :=
      List.get?_take hpn
    obtain ⟨v, hv⟩ : ∃ v, deleted.get? p = some v := by
      cases hg : deleted.get? p with
      | none => exact absurd (List.get?_eq_none.mp hg) (Nat.not_le.mpr hpd)
      | some v => exact ⟨v, rfl⟩
    simp only [MmapInvertedIndex.isActive, openIndex, bitGet, htake, hv,
      Option.getD_some]
  have hcnt := List.length_eq_countP_add_countP
    (fun i => ((deleted.take counts.length).get? i).getD false)
    (List.range counts.length)
  rw [List.length_range] at hcnt
  have hpos : List.countP
      (fun i => ((deleted.take counts.length).get? i).getD false)
      (List.range counts.length) = (deleted.take counts.length).count true := by
    rw [List.countP_eq_length_filter]
    have := filter_range_getD (deleted.take counts.length)
    rw [hlt] at this
    exact this
  have hneg : numActiveBelow (openIndex ps counts deleted) counts.length
      = List.countP
        (fun a => decide ¬((deleted.take counts.length).get? a).getD false = true)
        (List.range counts.length) := by
    unfold numActiveBelow
    rw [List.countP_eq_length_filter, List.filter_congr hcongr]
    apply congrArg
    apply List.filter_congr
    intro j _
    cases hb : ((deleted.take counts.length).get? j).getD false <;> simp [hb]
  rw [hneg, h1]
  omega

/-- One `remove` call preserves the count-conservation invariant restricted
to ids below the token-count slice length. -/
theorem remove_preserves_active_eq (n : Nat) (idx : MmapInvertedIndex)
    (s : InvStorage) (hs : idx.storage = some s)
    (hn : s.pointToTokensCount.length = n)
    (hact : idx.activePointsCount = numActiveBelow idx n) (i : PointId) :
    ∃ s', (idx.remove i).2.storage = some s'
      ∧ s'.pointToTokensCount.length = n
      ∧ (idx.remove i).2.activePointsCount
          = numActiveBelow (idx.remove i).2 n := by
  cases hb : bitGet s.deletedPoints i with
  | none =>
    have heq : idx.remove i = (false, idx) := by
      simp [MmapInvertedIndex.remove, hs, hb]
    rw [heq]
    exact ⟨s, hs, hn, hact⟩
  | some b =>
    cases b with
    | true =>
      have heq : idx.remove i = (false, idx) := by
        simp [MmapInvertedIndex.remove, hs, hb]
      rw [heq]
      exact ⟨s, hs, hn, hact⟩
    | false =>
      have hil : i < s.deletedPoints.length := by
        rcases List.get?_eq_some.mp hb with ⟨h, -⟩
        exact h
      have hbset : bitGet (bitSet s.deletedPoints i true) i = some true := by
        simpa [bitGet, bitSet] using List.get?_set_eq_of_lt true hil
      have hbne : ∀ j, j ≠ i →
          bitGet (bitSet s.deletedPoints i true) j = bitGet s.deletedPoints j := by
        intro j hji
        unfold bitGet bitSet
        exact List.get?_set_ne true _ (Ne.symm hji)
      by_cases hlen : i < s.pointToTokensCount.length
      · have heq2 : (idx.remove i).2
            = MmapInvertedIndex.mk
              (some ⟨s.postings, s.pointToTokensCount.set i 0,
                bitSet s.deletedPoints i true⟩)
              (idx.activePointsCount - 1) := by
          simp [MmapInvertedIndex.remove, hs, hb, hlen]
        rw [heq2]
        refine ⟨_, rfl, by simpa using hn, ?_⟩
        have hPi : idx.isActive i = true :=
          (isActive_iff_bit_clear idx s hs i).mpr hb
        have hQi : (MmapInvertedIndex.mk
            (some ⟨s.postings, s.pointToTokensCount.set i 0,
              bitSet s.deletedPoints i true⟩)
            (idx.activePointsCount - 1)).isActive i = false := by
          simp [MmapInvertedIndex.isActive, hbset]
        have hsame : ∀ j, j ≠ i → (MmapInvertedIndex.mk
            (some ⟨s.postings, s.pointToTokensCount.set i 0,
              bitSet s.deletedPoints i true⟩)
            (idx.activePointsCount - 1)).isActive j = idx.isActive j := by
          intro j hji
          simp [MmapInvertedIndex.isActive, hs, hbne j hji]
        have hflip := @filter_length_sub_one (fun p => idx.isActive p)
          (fun p => (MmapInvertedIndex.mk
            (some ⟨s.postings, s.pointToTokensCount.set i 0,
              bitSet s.deletedPoints i true⟩)
            (idx.activePointsCount - 1)).isActive p)
          (List.range n) (List.nodup_range n)
          i (List.mem_range.mpr (hn ▸ hlen)) hPi hQi
          (fun j _ hji => hsame j hji)
        unfold numActiveBelow at hact hflip ⊢
        have hge1 : 1 ≤ (List.filter (fun p => idx.isActive p)
            (List.range n)).length := by
          have h1 : i ∈ List.filter (fun p => idx.isActive p) (List.range n) :=
            List.mem_filter.mpr ⟨List.mem_range.mpr (hn ▸ hlen), hPi⟩
          have h2 := List.ne_nil_of_mem h1
          have h3 := List.length_pos.mpr h2
          omega
        show idx.activePointsCount - 1 = _
        rw [hflip, hact]
      · have heq2 : (idx.remove i).2
            = MmapInvertedIndex.mk
              (some ⟨s.postings, s.pointToTokensCount,
                bitSet s.deletedPoints i true⟩)
              idx.activePointsCount := by
          simp [MmapInvertedIndex.remove, hs, hb, hlen]
        rw [heq2]
        refine ⟨_, rfl, hn, ?_⟩
        have hge : n ≤ i := hn ▸ Nat.not_lt.mp hlen
        have hsame : ∀ p ∈ List.range n, (MmapInvertedIndex.mk
            (some ⟨s.postings, s.pointToTokensCount,
              bitSet s.deletedPoints i true⟩)
            idx.activePointsCount).isActive p = idx.isActive p := by
          intro p hp
          have hpn : p < n := List.mem_range.mp hp
          have hpi : p ≠ i := fun h => absurd (h ▸ hpn) (Nat.not_lt.mpr hge)
          simp [MmapInvertedIndex.isActive, hs, hbne p hpi]
        unfold numActiveBelow at hact ⊢
        show idx.activePointsCount = _
        rw [List.filter_congr hsame]
        exact hact

/-- The count-conservation invariant survives any sequence of removes. -/
theorem removeAll_active_eq (n : Nat) :
    ∀ (rs : List PointId) (idx : MmapInvertedIndex) (s : InvStorage),
      idx.storage = some s → s.pointToTokensCount.length = n →
      idx.activePointsCount = numActiveBelow idx n →
      (removeAll idx rs).activePointsCount
        = numActiveBelow (removeAll idx rs) n := by
  intro rs
  induction rs with
  | nil =>
    intro idx s hs hn hact
    exact hact
  | cons i is ih =>
    intro idx s hs hn hact
    obtain ⟨s', hs', hn', hact'⟩ :=
      remove_preserves_active_eq n idx s hs hn hact i
    exact ih (idx.remove i).2 s' hs' hn' hact'

/-- C3 (amended): immediately after `open`, the active-points counter equals
`len(point_to_tokens_count) − popcount(deleted_points)`; and after every
sequence of `remove` calls, `points_count()` equals the number of point ids
`p` below `len(point_to_tokens_count)` for which `is_active(p)` holds —
provided the deletion bitset covers the token-count slice and, at open, every
bit beyond the slice is clear (which the build guarantees).  Restricting to
ids below the slice length is necessary: clear padding bits of the
word-rounded bitset make `is_active` true for ids the counter never counted. -/
theorem c3_points_count_conservation (ps : MPostings) (counts : List Nat)
    (deleted : List Bool) (hlen : counts.length ≤ deleted.length)
    (hpad : ∀ b ∈ deleted.drop counts.length, b = false) (rs : List PointId) :
    (openIndex ps counts deleted).pointsCount
        = counts.length - deleted.count true
      ∧ (removeAll (openIndex ps counts deleted) rs).pointsCount
          = numActiveBelow (removeAll (openIndex ps counts deleted) rs)
              counts.length := by
  refine ⟨rfl, ?_⟩
  exact removeAll_active_eq counts.length rs (openIndex ps counts deleted)
    ⟨ps, counts, deleted⟩ rfl rfl
    (openIndex_active_count ps counts deleted hlen hpad)

/-- Witness for C3: a two-point index with no tombstones; after removing
point 0 the counter is 1 and exactly one id below the slice is active. -/
theorem c3_points_count_conservation_witness :
    (removeAll (openIndex (.ids []) [1, 2] [false, false]) [0]).pointsCount
      = numActiveBelow
          (removeAll (openIndex (.ids []) [1, 2] [false, false]) [0]) 2 :=
  (c3_points_count_conservation (.ids []) [1, 2] [false, false]
    (by decide) (by decide) [0]).2

/-- Counterexample to C3 as stated: with the word-rounded deletion bitset
longer than the token-count slice (one slot, two bits, none set), the counter
after open is 1, yet both ids 0 and 1 are `is_active`, so
`points_count() ≠ |{p : is_active(p)}|` (by `isActive_false_of_ge`, the
active set is exactly the active ids below `deletedLen`, which number 2). -/
theorem c3_points_count_conservation_counterexample :
    (openIndex (.ids []) [5] [false, false]).pointsCount = 1
      ∧ numActiveBelow (openIndex (.ids []) [5] [false, false])
          (deletedLen (openIndex (.ids []) [5] [false, false])) = 2
      ∧ (openIndex (.ids []) [5] [false, false]).isActive 0 = true
      ∧ (openIndex (.ids []) [5] [false, false]).isActive 1 = true := by
  decide

/-! ### Lexicographic-order facts for `geoCmp` and `isPfx` -/

theorem bcmp_eq_iff (a b : Nat) : bcmp a b = .eq ↔ a = b := by
  unfold bcmp
  by_cases h1 : a < b
  · simp [h1]
    omega
  · by_cases h2 : a = b
    · simp [h1, h2]
    · simp [h1, h2]

theorem bcmp_lt_iff (a b : Nat) : bcmp a b = .lt ↔ a < b := by
  unfold bcmp
  by_cases h1 : a < b
  · simp [h1]
  · by_cases h2 : a = b <;> simp [h1, h2]

theorem bcmp_gt_iff (a b : Nat) : bcmp a b = .gt ↔ b < a := by
  unfold bcmp
  by_cases h1 : a < b
  · simp [h1]
    omega
  · by_cases h2 : a = b
    · simp [h1, h2]
    · simp [h1, h2]
      omega

theorem geoCmp_eq_iff : ∀ x y : GeoHash, geoCmp x y = .eq ↔ x = y := by
  intro x
  induction x with
  | nil =>
    intro y
    cases y with
    | nil => simp [geoCmp]
    | cons b ys => simp [geoCmp]
  | cons a xs ih =>
    intro y
    cases y with
    | nil => simp [geoCmp]
    | cons b ys =>
      unfold geoCmp
      cases hab : bcmp a b with
      | eq =>
        have hab' : a = b := (bcmp_eq_iff a b).mp hab
        subst hab'
        simp [ih ys]
      | lt =>
        have hab' : a ≠ b := by
          intro h
          rw [h] at hab
          rw [(bcmp_eq_iff b b).mpr rfl] at hab
          cases hab
        simp [hab']
      | gt =>
        have hab' : a ≠ b := by
          intro h
          rw [h] at hab
          rw [(bcmp_eq_iff b b).mpr rfl] at hab
          cases hab
        simp [hab']

theorem geoCmp_refl (x : GeoHash) : geoCmp x x = .eq :=
  (geoCmp_eq_iff x x).mpr rfl

theorem geoCmp_gt_iff : ∀ x y : GeoHash, geoCmp x y = .gt ↔ geoCmp y x = .lt := by
  intro x
  induction x with
  | nil =>
    intro y
    cases y with
    | nil => simp [geoCmp]
    | cons b ys => simp [geoCmp]
  | cons a xs ih =>
    intro y
    cases y with
    | nil => simp [geoCmp]
    | cons b ys =>
      unfold geoCmp
      cases hab : bcmp a b with
      | eq =>
        have hab' : a = b := (bcmp_eq_iff a b).mp hab
        subst hab'
        rw [(bcmp_eq_iff a a).mpr rfl]
        exact ih ys
      | lt =>
        have hba : bcmp b a = .gt := (bcmp_gt_iff b a).mpr ((bcmp_lt_iff a b).mp hab)
        rw [hba]
        simp
      | gt =>
        have hba : bcmp b a = .lt := (bcmp_lt_iff b a).mpr ((bcmp_gt_iff a b).mp hab)
        rw [hba]
        simp

theorem geoCmp_lt_trans :
    ∀ x y z : GeoHash, geoCmp x y = .lt → geoCmp y z = .lt → geoCmp x z = .lt := by
  intro x
  induction x with
  | nil =>
    intro y z hxy hyz
    cases z with
    | nil =>
      cases y with
      | nil => cases hxy
      | cons b ys => cases hyz
    | cons c zs => simp [geoCmp]
  | cons a xs ih =>
    intro y z hxy hyz
    cases y with
    | nil => cases hxy
    | cons b ys =>
      cases z with
      | nil => cases hyz
      | cons c zs =>
        unfold geoCmp at hxy hyz ⊢
        cases hab : bcmp a b with
        | eq =>
          have hab' : a = b := (bcmp_eq_iff a b).mp hab
          subst hab'
          rw [hab] at hxy
          cases hbc : bcmp a c with
          | eq =>
            have hbc' : a = c := (bcmp_eq_iff a c).mp hbc
            subst hbc'
            rw [hbc] at hyz
            exact ih ys zs hxy hyz
          | lt => rfl
          | gt =>
            rw [hbc] at hyz
            cases hyz
        | lt =>
          have hab' : a < b := (bcmp_lt_iff a b).mp hab
          cases hbc : bcmp b c with
          | eq =>
            have hbc' : b = c := (bcmp_eq_iff b c).mp hbc
            subst hbc'
            rw [(bcmp_lt_iff a b).mpr hab']
          | lt =>
            have hbc' : b < c := (bcmp_lt_iff b c).mp hbc
            rw [(bcmp_lt_iff a c).mpr (Nat.lt_trans hab' hbc')]
          | gt =>
            rw [hbc] at hyz
            cases hyz
        | gt =>
          rw [hab] at hxy
          cases hxy

theorem isPfx_refl : ∀ x : GeoHash, isPfx x x = true := by
  intro x
  induction x with
  | nil => rfl
  | cons a xs ih => simp [isPfx, ih]

theorem isPfx_not_gt : ∀ p x : GeoHash, isPfx p x = true → geoCmp p x ≠ .gt := by
  intro p
  induction p with
  | nil =>
    intro x _
    cases x with
    | nil => simp [geoCmp]
    | cons b ys => simp [geoCmp]
  | cons a ps ih =>
    intro x hpx
    cases x with
    | nil => cases hpx
    | cons b ys =>
      have hax : a = b ∧ isPfx ps ys = true := by simpa [isPfx] using hpx
      obtain ⟨rfl, hps⟩ := hax
      unfold geoCmp
      rw [(bcmp_eq_iff a a).mpr rfl]
      exact ih ys hps

/-- Lexicographic sandwich: a string between two extensions of the same
prefix is itself an extension of that prefix. -/
theorem isPfx_sandwich :
    ∀ p x y z : GeoHash, isPfx p x = true → isPfx p z = true →
      geoCmp x y ≠ .gt → geoCmp y z ≠ .gt → isPfx p y = true := by
  intro p
  induction p with
  | nil =>
    intro x y z _ _ _ _
    rfl
  | cons a ps ih =>
    intro x y z hpx hpz hxy hyz
    cases x with
    | nil => cases hpx
    | cons b xs =>
      cases z with
      | nil => cases hpz
      | cons c zs =>
        have hbx : a = b ∧ isPfx ps xs = true := by simpa [isPfx] using hpx
        have hcz : a = c ∧ isPfx ps zs = true := by simpa [isPfx] using hpz
        obtain ⟨rfl, hpxs⟩ := hbx
        obtain ⟨hac, hpzs⟩ := hcz
        cases y with
        | nil =>
          exact absurd (by simp [geoCmp]) hxy
        | cons d ys =>
          unfold geoCmp at hxy hyz
          cases had : bcmp a d with
          | eq =>
            have had' : a = d := (bcmp_eq_iff a d).mp had
            subst had'
            rw [had] at hxy
            have hdc : bcmp a c = .eq := (bcmp_eq_iff a c).mpr hac
            rw [hdc] at hyz
            simp only [isPfx, Bool.and_eq_true, beq_iff_eq]
            exact ⟨trivial, ih xs ys zs hpxs hpzs hxy hyz⟩
          | gt =>
            rw [had] at hxy
            exact absurd rfl hxy
          | lt =>
            have h1 : a < d := (bcmp_lt_iff a d).mp had
            have hdc : bcmp d c = .gt := by
              rw [bcmp_gt_iff]
              rw [← hac]
              exact h1
            rw [hdc] at hyz
            exact absurd rfl hyz

/-- Two members of a pairwise-related list are equal or related one way. -/
theorem pairwise_rel_or {α : Type} {R : α → α → Prop} :
    ∀ l : List α, l.Pairwise R → ∀ a ∈ l, ∀ b ∈ l, a = b ∨ R a b ∨ R b a := by
  intro l
  induction l with
  | nil =>
    intro _ a ha
    cases ha
  | cons x t ih =>
    intro hp a ha b hb
    have hx := (List.pairwise_cons.mp hp).1
    have ht := (List.pairwise_cons.mp hp).2
    rcases List.mem_cons.mp ha with rfl | hat
    · rcases List.mem_cons.mp hb with rfl | hbt
      · exact Or.inl rfl
      · exact Or.inr (Or.inl (hx b hbt))
    · rcases List.mem_cons.mp hb with rfl | hbt
      · exact Or.inr (Or.inr (hx a hat))
      · exact ih ht a hat b hbt

/-- Correctness of the binary-search loop: under a monotone index comparator
the loop either returns `Ok` at an `Equal` position, or `Err` at the
insertion point — everything to its left compares `Less` and everything to
its right (below `n`) compares `Greater`. -/
theorem binSearchLoop_spec (c : Nat → Ordering) (n : Nat)
    (hmlt : ∀ i j, i ≤ j → j < n → c j = .lt → c i = .lt)
    (hmgt : ∀ i j, i ≤ j → j < n → c i = .gt → c j = .gt) :
    ∀ fuel lo hi, hi ≤ n → lo ≤ hi → hi - lo < fuel →
      (∀ k, k < lo → c k = .lt) → (∀ k, hi ≤ k → k < n → c k = .gt) →
      (∀ m, binSearchLoop c fuel lo hi = .ok m → m < n ∧ c m = .eq)
      ∧ (∀ k, binSearchLoop c fuel lo hi = .error k →
          (∀ j, j < k → c j = .lt) ∧ (∀ j, k ≤ j → j < n → c j = .gt)) := by
  intro fuel
  induction fuel with
  | zero =>
    intro lo hi hhi hlo hfuel hloInv hhiInv
    omega
  | succ f ih =>
    intro lo hi hhi hlo hfuel hloInv hhiInv
    unfold binSearchLoop
    by_cases hlt : lo < hi
    · simp only [hlt, if_true]
      have hmid2 : lo + (hi - lo) / 2 < hi := by
        have := Nat.div_lt_self (show 0 < hi - lo by omega) (show 1 < 2 by omega)
        omega
      have hmidn : lo + (hi - lo) / 2 < n := Nat.lt_of_lt_of_le hmid2 hhi
      cases hc : c (lo + (hi - lo) / 2) with
      | lt =>
        have hloInv' : ∀ k, k < lo + (hi - lo) / 2 + 1 → c k = .lt := by
          intro k hk
          exact hmlt k (lo + (hi - lo) / 2) (by omega) hmidn hc
        exact ih (lo + (hi - lo) / 2 + 1) hi hhi (by omega) (by omega)
          hloInv' hhiInv
      | gt =>
        have hhiInv' : ∀ k, lo + (hi - lo) / 2 ≤ k → k < n → c k = .gt := by
          intro k hk hkn
          exact hmgt (lo + (hi - lo) / 2) k hk hkn hc
        exact ih lo (lo + (hi - lo) / 2) (by omega) (by omega) (by omega)
          hloInv hhiInv'
      | eq =>
        constructor
        · intro m hm
          have : lo + (hi - lo) / 2 = m := by
            cases hm
            rfl
          subst this
          exact ⟨hmidn, hc⟩
        · intro k hk
          exact Except.noConfusion hk
    · simp only [hlt, if_false]
      have hlohi : lo = hi := by omega
      constructor
      · intro m hm
        exact Except.noConfusion hm
      · intro k hk
        have hkl : lo = k := by
          cases hk
          rfl
        subst hkl
        exact ⟨hloInv, fun j hj hjn => hhiInv j (hlohi ▸ hj) hjn⟩

/-- The index comparator used by `binarySearchBy`. -/
def idxCmp {α : Type} (f : α → Ordering) (l : List α) (i : Nat) : Ordering :=
  match l.get? i with
  | some x => f x
  | none => .eq

/-- `binary_search_by` over a list strictly sorted by geohash key: `Ok` lands
on a matching element; when a match exists the search finds one; and the
unwrapped start index (`unwrap_or_else(|i| i)`) splits the list into a strict
`Less` prefix and a no-`Less` suffix. -/
theorem binarySearchBy_sorted_spec {α : Type} (key : α → GeoHash) (h : GeoHash)
    (l : List α)
    (hsort : l.Pairwise (fun a b => geoCmp (key a) (key b) = .lt)) :
    (∀ m, binarySearchBy (fun x => geoCmp (key x) h) l = .ok m →
        ∃ x, l.get? m = some x ∧ key x = h)
    ∧ ((∃ x ∈ l, key x = h) →
        ∃ m, binarySearchBy (fun x => geoCmp (key x) h) l = .ok m)
    ∧ (∀ j, j < searchIdx (binarySearchBy (fun x => geoCmp (key x) h) l) →
        ∃ x, l.get? j = some x ∧ geoCmp (key x) h = .lt)
    ∧ (∀ j x, searchIdx (binarySearchBy (fun x => geoCmp (key x) h) l) ≤ j →
        l.get? j = some x → geoCmp (key x) h ≠ .lt) := by
  have hpair : ∀ i j, i < j → ∀ xi xj, l.get? i = some xi → l.get? j = some xj →
      geoCmp (key xi) (key xj) = .lt := by
    intro i j hij xi xj hxi hxj
    obtain ⟨hi, hgi⟩ := List.get?_eq_some.mp hxi
    obtain ⟨hj, hgj⟩ := List.get?_eq_some.mp hxj
    have := (List.pairwise_iff_get.mp hsort) ⟨i, hi⟩ ⟨j, hj⟩ hij
    rw [hgi, hgj] at this
    exact this
  have hcsome : ∀ j x, l.get? j = some x →
      idxCmp (fun x => geoCmp (key x) h) l j = geoCmp (key x) h := by
    intro j x hx
    unfold idxCmp
    rw [hx]
  have hmlt : ∀ i j, i ≤ j → j < l.length →
      idxCmp (fun x => geoCmp (key x) h) l j = .lt →
      idxCmp (fun x => geoCmp (key x) h) l i = .lt := by
    intro i j hij hjn hcj
    obtain ⟨xj, hxj⟩ : ∃ x, l.get? j = some x := by
      cases hg : l.get? j with
      | none => exact absurd (List.get?_eq_none.mp hg) (Nat.not_le.mpr hjn)
      | some x => exact ⟨x, rfl⟩
    obtain ⟨xi, hxi⟩ : ∃ x, l.get? i = some x := by
      cases hg : l.get? i with
      | none =>
        exact absurd (List.get?_eq_none.mp hg)
          (Nat.not_le.mpr (Nat.lt_of_le_of_lt hij hjn))
      | some x => exact ⟨x, rfl⟩
    rw [hcsome j xj hxj] at hcj
    rw [hcsome i xi hxi]
    rcases Nat.lt_or_ge i j with hij' | hij'
    · exact geoCmp_lt_trans _ _ _ (hpair i j hij' xi xj hxi hxj) hcj
    · have : i = j := by omega
      subst this
      rw [hxi] at hxj
      cases Option.some.inj hxj
      exact hcj
  have hmgt : ∀ i j, i ≤ j → j < l.length →
      idxCmp (fun x => geoCmp (key x) h) l i = .gt →
      idxCmp (fun x => geoCmp (key x) h) l j = .gt := by
    intro i j hij hjn hci
    obtain ⟨xj, hxj⟩ : ∃ x, l.get? j = some x := by
      cases hg : l.get? j with
      | none => exact absurd (List.get?_eq_none.mp hg) (Nat.not_le.mpr hjn)
      | some x => exact ⟨x, rfl⟩
    obtain ⟨xi, hxi⟩ : ∃ x, l.get? i = some x := by
      cases hg : l.get? i with
      | none =>
        exact absurd (List.get?_eq_none.mp hg)
          (Nat.not_le.mpr (Nat.lt_of_le_of_lt hij hjn))
      | some x => exact ⟨x, rfl⟩
    rw [hcsome i xi hxi] at hci
    rw [hcsome j xj hxj]
    rcases Nat.lt_or_ge i j with hij' | hij'
    · rw [geoCmp_gt_iff] at hci ⊢
      exact geoCmp_lt_trans _ _ _ hci (hpair i j hij' xi xj hxi hxj)
    · have : i = j := by omega
      subst this
      rw [hxi] at hxj
      cases Option.some.inj hxj
      exact hci
  have hspec := binSearchLoop_spec (idxCmp (fun x => geoCmp (key x) h) l)
    l.length hmlt hmgt (l.length + 1) 0 l.length (Nat.le_refl _)
    (Nat.zero_le _) (by omega) (fun k hk => absurd hk (Nat.not_lt.mpr (Nat.zero_le _)))
    (fun k hk hkn => absurd hkn (Nat.not_lt.mpr hk))
  have hrun : binarySearchBy (fun x => geoCmp (key x) h) l
      = binSearchLoop (idxCmp (fun x => geoCmp (key x) h) l)
        (l.length + 1) 0 l.length := rfl
  refine ⟨?_, ?_, ?_, ?_⟩
  · intro m hm
    rw [hrun] at hm
    obtain ⟨hmn, hcm⟩ := hspec.1 m hm
    obtain ⟨x, hx⟩ : ∃ x, l.get? m = some x := by
      cases hg : l.get? m with
      | none => exact absurd (List.get?_eq_none.mp hg) (Nat.not_le.mpr hmn)
      | some x => exact ⟨x, rfl⟩
    rw [hcsome m x hx] at hcm
    exact ⟨x, hx, (geoCmp_eq_iff _ _).mp hcm⟩
  · rintro ⟨x, hxl, hxh⟩
    obtain ⟨j0, hj0⟩ := List.get?_of_mem hxl
    have hj0n : j0 < l.length := by
      rcases List.get?_eq_some.mp hj0 with ⟨hh, -⟩
      exact hh
    have hcj0 : idxCmp (fun x => geoCmp (key x) h) l j0 = .eq := by
      rw [hcsome j0 x hj0, hxh]
      exact geoCmp_refl h
    cases hres : binarySearchBy (fun x => geoCmp (key x) h) l with
    | ok m => exact ⟨m, rfl⟩
    | error k =>
      rw [hrun] at hres
      obtain ⟨hlt, hgt⟩ := hspec.2 k hres
      rcases Nat.lt_or_ge j0 k with hjk | hjk
      · rw [hlt j0 hjk] at hcj0
        cases hcj0
      · rw [hgt j0 hjk hj0n] at hcj0
        cases hcj0
  · intro j hj
    cases hres : binarySearchBy (fun x => geoCmp (key x) h) l with
    | ok m =>
      rw [hres] at hj
      have hm := hres
      rw [hrun] at hm
      obtain ⟨hmn, hcm⟩ := hspec.1 m hm
      obtain ⟨xm, hxm⟩ : ∃ x, l.get? m = some x := by
        cases hg : l.get? m with
        | none => exact absurd (List.get?_eq_none.mp hg) (Nat.not_le.mpr hmn)
        | some x => exact ⟨x, rfl⟩
      rw [hcsome m xm hxm] at hcm
      have hxmh : key xm = h := (geoCmp_eq_iff _ _).mp hcm
      have hjn : j < l.length := Nat.lt_trans hj hmn
      obtain ⟨xj, hxj⟩ : ∃ x, l.get? j = some x := by
        cases hg : l.get? j with
        | none => exact absurd (List.get?_eq_none.mp hg) (Nat.not_le.mpr hjn)
        | some x => exact ⟨x, rfl⟩
      refine ⟨xj, hxj, ?_⟩
      rw [← hxmh]
      exact hpair j m hj xj xm hxj hxm
    | error k =>
      rw [hres] at hj
      have hk := hres
      rw [hrun] at hk
      obtain ⟨hlt, -⟩ := hspec.2 k hk
      have hcj := hlt j hj
      obtain ⟨xj, hxj⟩ : ∃ x, l.get? j = some x := by
        cases hg : l.get? j with
        | none =>
          rw [show idxCmp (fun x => geoCmp (key x) h) l j = .eq by
            unfold idxCmp
            rw [hg]] at hcj
          cases hcj
        | some x => exact ⟨x, rfl⟩
      rw [hcsome j xj hxj] at hcj
      exact ⟨xj, hxj, hcj⟩
  · intro j x hj hx
    have hjn : j < l.length := by
      rcases List.get?_eq_some.mp hx with ⟨hh, -⟩
      exact hh
    cases hres : binarySearchBy (fun x => geoCmp (key x) h) l with
    | ok m =>
      rw [hres] at hj
      have hm := hres
      rw [hrun] at hm
      obtain ⟨hmn, hcm⟩ := hspec.1 m hm
      obtain ⟨xm, hxm⟩ : ∃ x, l.get? m = some x := by
        cases hg : l.get? m with
        | none => exact absurd (List.get?_eq_none.mp hg) (Nat.not_le.mpr hmn)
        | some x => exact ⟨x, rfl⟩
      rw [hcsome m xm hxm] at hcm
      have hxmh : key xm = h := (geoCmp_eq_iff _ _).mp hcm
      rcases Nat.lt_or_ge m j with hmj | hmj
      · have hlt := hpair m j hmj xm x hxm hx
        rw [hxmh] at hlt
        rw [← geoCmp_gt_iff] at hlt
        intro hcon
        rw [hcon] at hlt
        cases hlt
      · have : m = j := by
          have hsm : searchIdx (Except.ok m) = m := rfl
          rw [hsm] at hj
          omega
        subst this
        rw [hxm] at hx
        cases Option.some.inj hx
        rw [(geoCmp_eq_iff _ _).mpr hxmh]
        intro hcon
        cases hcon
    | error k =>
      rw [hres] at hj
      have hk := hres
      rw [hrun] at hk
      obtain ⟨-, hgt⟩ := hspec.2 k hk
      have hcj := hgt j hj hjn
      rw [hcsome j x hx] at hcj
      rw [hcj]
      intro hcon
      cases hcon

/-- When every points key is present in the values map and the points map is
no longer than the values map, the zip of the build writes every slot and the
result is the entrywise join. -/
theorem buildCountsPerHash_join (pph vph : List (GeoHash × Nat))
    (hkeys : ∀ e ∈ pph, lookupHash vph e.1 ≠ none)
    (hlen : pph.length ≤ vph.length) :
    buildCountsPerHash pph vph
      = pph.map (fun e => ⟨e.1, e.2, (lookupHash vph e.1).getD 0⟩) := by
  have hmin : min pph.length vph.length = pph.length := min_eq_left hlen
  apply List.ext_get?
  intro i
  unfold buildCountsPerHash
  rw [hmin, List.get?_map, List.get?_map]
  by_cases hi : i < pph.length
  · rw [List.get?_range hi]
    obtain ⟨e, he⟩ : ∃ e, pph.get? i = some e := by
      cases hg : pph.get? i with
      | none => exact absurd (List.get?_eq_none.mp hg) (Nat.not_le.mpr hi)
      | some e => exact ⟨e, rfl⟩
    obtain ⟨v, hv⟩ : ∃ v, lookupHash vph e.1 = some v := by
      cases hg : lookupHash vph e.1 with
      | none => exact absurd hg (hkeys e (List.get?_mem he))
      | some v => exact ⟨v, rfl⟩
    rw [List.get?_eq_getElem?] at he
    simp [he, hv]
  · rw [List.get?_eq_none.mpr (by simpa using Nat.not_lt.mp hi),
      List.get?_eq_none.mpr (Nat.not_lt.mp hi)]
    rfl

/-- C4 (amended): when the points-per-hash and values-per-hash maps have the
same key set (every points key resolves in the values map and the points map
is not longer), the on-disk `counts_per_hash` array is exactly the join of
the two maps, entry by entry in input order; consequently `points_of_hash(h)`
returns the input points count for every input hash and 0 for every other
hash. -/
theorem c4_build_counts_and_points_of_hash (pph vph : List (GeoHash × Nat))
    (hsort : pph.Pairwise (fun a b => geoCmp a.1 b.1 = .lt))
    (hkeys : ∀ e ∈ pph, lookupHash vph e.1 ≠ none)
    (hlen : pph.length ≤ vph.length)
    (pm : List PointKeyValue) (ids : List PointId) (del : List Bool) :
    buildCountsPerHash pph vph
        = pph.map (fun e => ⟨e.1, e.2, (lookupHash vph e.1).getD 0⟩)
      ∧ (∀ e ∈ pph,
          (MmapGeoMapIndex.mk
            (some ⟨buildCountsPerHash pph vph, pm, ids, del⟩)).pointsOfHash
            e.1 = e.2)
      ∧ (∀ hq : GeoHash, (∀ e ∈ pph, e.1 ≠ hq) →
          (MmapGeoMapIndex.mk
            (some ⟨buildCountsPerHash pph vph, pm, ids, del⟩)).pointsOfHash
            hq = 0) := by
  have hbuild := buildCountsPerHash_join pph vph hkeys hlen
  have hhash : ∀ e : GeoHash × Nat,
      ((fun e : GeoHash × Nat =>
        (⟨e.1, e.2, (lookupHash vph e.1).getD 0⟩ : Counts)) e).hash = e.1 :=
    fun e => rfl
  have hsortc : (buildCountsPerHash pph vph).Pairwise
      (fun a b => geoCmp a.hash b.hash = .lt) := by
    rw [hbuild]
    exact List.Pairwise.map _ (fun a b hab => hab) hsort
  refine ⟨hbuild, ?_, ?_⟩
  · intro e he
    have hspec := binarySearchBy_sorted_spec Counts.hash e.1
      (buildCountsPerHash pph vph) hsortc
    have hmem : (⟨e.1, e.2, (lookupHash vph e.1).getD 0⟩ : Counts)
        ∈ buildCountsPerHash pph vph := by
      rw [hbuild]
      exact List.mem_map.mpr ⟨e, he, rfl⟩
    obtain ⟨m, hm⟩ := hspec.2.1 ⟨_, hmem, rfl⟩
    obtain ⟨x, hxm, hxh⟩ := hspec.1 m hm
    have hxmem : x ∈ buildCountsPerHash pph vph := List.get?_mem hxm
    obtain ⟨e', he', hge'⟩ := List.mem_map.mp (hbuild ▸ hxmem)
    have he'1 : e'.1 = e.1 := by
      rw [← hxh, ← hge']
    have hee : e' = e := by
      rcases pairwise_rel_or pph hsort e' he' e he with heq | hlt | hlt
      · exact heq
      · rw [he'1] at hlt
        rw [geoCmp_refl] at hlt
        cases hlt
      · rw [he'1] at hlt
        rw [geoCmp_refl] at hlt
        cases hlt
    subst hee
    simp only [MmapGeoMapIndex.pointsOfHash, hm, hxm, ← hge']
    rfl
  · intro hq hne
    have hspec := binarySearchBy_sorted_spec Counts.hash hq
      (buildCountsPerHash pph vph) hsortc
    cases hres : binarySearchBy (fun x => geoCmp x.hash hq)
        (buildCountsPerHash pph vph) with
    | ok m =>
      obtain ⟨x, hxm, hxh⟩ := hspec.1 m hres
      have hxmem : x ∈ buildCountsPerHash pph vph := List.get?_mem hxm
      obtain ⟨e', he', hge'⟩ := List.mem_map.mp (hbuild ▸ hxmem)
      have : e'.1 = hq := by
        rw [← hxh, ← hge']
      exact absurd this (hne e' he')
    | error k =>
      simp only [MmapGeoMapIndex.pointsOfHash, hres]

/-- Witness for C4: a concrete two-entry join where `points_of_hash` returns
the input points count. -/
theorem c4_build_counts_and_points_of_hash_witness :
    (MmapGeoMapIndex.mk
      (some ⟨buildCountsPerHash [([0], 1), ([1], 2)] [([0], 3), ([1], 2)],
        [], [], []⟩)).pointsOfHash [1] = 2 :=
  (c4_build_counts_and_points_of_hash [([0], 1), ([1], 2)] [([0], 3), ([1], 2)]
    (by decide) (by decide) (by decide) [] [] []).2.1 ([1], 2) (by decide)

/-- Counterexample to C4 as stated: with points keys `[0]` and `[1]` but the
values map knowing only `[1]`, the zipped build allocates one slot, pairs it
with key `[0]`, finds no values entry and leaves the slot zeroed — so the
hash `[1]`, although present in both maps with points count 2, is absent from
`counts_per_hash` and `points_of_hash([1])` returns 0, not 2. -/
theorem c4_build_counts_and_points_of_hash_counterexample :
    buildCountsPerHash [([0], 1), ([1], 2)] [([1], 2)] = [⟨[], 0, 0⟩]
      ∧ lookupHash [([1], 2)] [1] = some 2
      ∧ (MmapGeoMapIndex.mk
          (some ⟨buildCountsPerHash [([0], 1), ([1], 2)] [([1], 2)],
            [], [], []⟩)).pointsOfHash [1] = 0 := by
  decide

/-- Over a pairwise-ordered list whose predicate is downward closed along the
order, `takeWhile` and `filter` agree. -/
theorem takeWhile_eq_filter_of_ordered {α : Type} {P : α → Bool}
    {R : α → α → Prop} :
    ∀ l : List α, l.Pairwise R →
      (∀ a ∈ l, ∀ b ∈ l, R a b → P b = true → P a = true) →
      l.takeWhile P = l.filter P := by
  intro l
  induction l with
  | nil =>
    intro _ _
    rfl
  | cons a t ih =>
    intro hp himp
    have hx := (List.pairwise_cons.mp hp).1
    have ht := (List.pairwise_cons.mp hp).2
    rw [List.takeWhile_cons, List.filter_cons]
    cases hPa : P a with
    | true =>
      simp only [if_true]
      rw [ih ht (fun x hx' y hy' =>
        himp x (List.mem_cons_of_mem a hx') y (List.mem_cons_of_mem a hy'))]
    | false =>
      simp only [Bool.false_eq_true, if_false]
      have hnil : t.filter P = [] := by
        rw [List.filter_eq_nil]
        intro b hb hPb
        have := himp a (List.mem_cons_self a t) b (List.mem_cons_of_mem a hb)
          (hx b hb) hPb
        rw [hPa] at this
        cases this
      rw [hnil]

/-- C5: over a points map strictly sorted by hash, `stored_sub_regions(h)`
yields exactly the ids in the `points_map_ids` ranges of the entries whose
hash starts with `h`, in on-disk order, with tombstoned (and
out-of-bitset-range) ids excluded; a point id appearing in several matching
entries is yielded once per occurrence. -/
theorem c5_stored_sub_regions_filter (g : MmapGeoMapIndex) (s : GeoStorage)
    (hg : g.storage = some s)
    (hsort : s.pointsMap.Pairwise (fun a b => geoCmp a.hash b.hash = .lt))
    (h : GeoHash) :
    g.storedSubRegions h
      = (s.pointsMap.filter (fun e => isPfx h e.hash)).flatMap
          (fun e => entryIds s e) := by
  have hspec := binarySearchBy_sorted_spec PointKeyValue.hash h s.pointsMap hsort
  have hstart := hspec.2.2.1
  have hrest := hspec.2.2.2
  simp only [MmapGeoMapIndex.storedSubRegions, hg]
  have htw : (s.pointsMap.drop
        (searchIdx (binarySearchBy (fun e => geoCmp e.hash h)
          s.pointsMap))).takeWhile (fun e => isPfx h e.hash)
      = (s.pointsMap.drop
        (searchIdx (binarySearchBy (fun e => geoCmp e.hash h)
          s.pointsMap))).filter (fun e => isPfx h e.hash) := by
    apply takeWhile_eq_filter_of_ordered _
      (List.Pairwise.sublist (List.drop_sublist _ _) hsort)
    intro a ha b _ hab hPb
    obtain ⟨j, hj⟩ := List.get?_of_mem ha
    have hja : s.pointsMap.get?
        (searchIdx (binarySearchBy (fun e => geoCmp e.hash h) s.pointsMap) + j)
        = some a := by
      rw [← List.get?_drop]
      exact hj
    have hnlt : geoCmp a.hash h ≠ .lt :=
      hrest _ a (Nat.le_add_right _ _) hja
    have hng : geoCmp h a.hash ≠ .gt := by
      intro hcon
      exact hnlt ((geoCmp_gt_iff h a.hash).mp hcon)
    exact isPfx_sandwich h h a.hash b.hash (isPfx_refl h) hPb hng
      (fun hcon => by rw [hab] at hcon; cases hcon)
  rw [htw]
  have hnilpre : (s.pointsMap.take
      (searchIdx (binarySearchBy (fun e => geoCmp e.hash h)
        s.pointsMap))).filter (fun e => isPfx h e.hash) = [] := by
    rw [List.filter_eq_nil]
    intro x hx hPx
    obtain ⟨j, hj⟩ := List.get?_of_mem hx
    have hjlen : j < (s.pointsMap.take
        (searchIdx (binarySearchBy (fun e => geoCmp e.hash h)
          s.pointsMap))).length := by
      rcases List.get?_eq_some.mp hj with ⟨hh, -⟩
      exact hh
    have hjs : j < searchIdx (binarySearchBy (fun e => geoCmp e.hash h)
        s.pointsMap) := by
      rw [List.length_take] at hjlen
      omega
    have hjx : s.pointsMap.get? j = some x := by
      rw [← List.get?_take hjs]
      exact hj
    obtain ⟨x', hx', hlx'⟩ := hstart j hjs
    rw [hjx] at hx'
    cases Option.some.inj hx'
    have hng : geoCmp h x.hash ≠ .gt := isPfx_not_gt h x.hash hPx
    exact hng ((geoCmp_gt_iff h x.hash).mpr hlx')
  conv_rhs =>
    rw [← List.take_append_drop
      (searchIdx (binarySearchBy (fun e => geoCmp e.hash h) s.pointsMap))
      s.pointsMap]
  rw [List.filter_append, hnilpre, List.nil_append]

/-- Witness for C5: a concrete three-entry points map; the prefix `[0]`
matches the first two entries, point 2 is tombstoned, and the stream equals
the filter-side description. -/
theorem c5_stored_sub_regions_filter_witness :
    (MmapGeoMapIndex.mk (some ⟨[],
        [⟨[0], 0, 2⟩, ⟨[0, 1], 2, 4⟩, ⟨[1], 4, 5⟩], [1, 2, 3, 4, 5],
        [false, false, true, false, false, false]⟩)).storedSubRegions [0]
      = (([⟨[0], 0, 2⟩, ⟨[0, 1], 2, 4⟩, ⟨[1], 4, 5⟩] :
          List PointKeyValue).filter (fun e => isPfx [0] e.hash)).flatMap
          (fun e => entryIds ⟨[],
            [⟨[0], 0, 2⟩, ⟨[0, 1], 2, 4⟩, ⟨[1], 4, 5⟩], [1, 2, 3, 4, 5],
            [false, false, true, false, false, false]⟩ e)
      ∧ (MmapGeoMapIndex.mk (some ⟨[],
          [⟨[0], 0, 2⟩, ⟨[0, 1], 2, 4⟩, ⟨[1], 4, 5⟩], [1, 2, 3, 4, 5],
          [false, false, true, false, false, false]⟩)).storedSubRegions [0]
        = [1, 3, 4] :=
  ⟨c5_stored_sub_regions_filter _ _ rfl (by decide) [0], by decide⟩

end QdrantSpec
